import Mathlib

/-!
# Verification of the credit-ai-insights RAG pipeline spec

A shallow embedding, over `List Char`, of the string-processing, caching,
retry and report-assembly logic of `src/utils/enhancedAiProcessor.ts` (and
the cache-key logic of `src/utils/pdfProcessor.ts`), together with theorems
settling the specification's claims about them.

JavaScript strings are modelled as `List Char` (one `Char` per UTF-16 unit;
every character these functions inspect lies in the BMP, where the two
notions agree).  Each regular-expression `replace` from the source is
embedded as a dedicated scanner with JavaScript's leftmost, non-overlapping,
greedy `g`-flag semantics.  Scanners whose recursion is not structural take
an explicit fuel argument, always called with the input's length, which is
an upper bound on the number of scanning steps; the fuel-exhausted branch
returns the remaining input unchanged and is unreachable from the wrappers.
-/

/-! ## JavaScript character classes

`isJsWs` is the set matched by `\s` in a JavaScript regular expression and
stripped by `String.prototype.trim`: tab, LF, VT, FF, CR, space, NBSP,
Ogham space mark, the U+2000–U+200A spaces, LS, PS, NNBSP, MMSP,
ideographic space and the BOM. -/

def isJsWs (c : Char) : Bool :=
  c = ' ' || c = '\t' || c = '\n' || c = '\r' ||
  c.val = 0x0b || c.val = 0x0c || c.val = 0xa0 || c.val = 0xfeff ||
  c.val = 0x1680 || (0x2000 ≤ c.val && c.val ≤ 0x200a) ||
  c.val = 0x2028 || c.val = 0x2029 || c.val = 0x202f || c.val = 0x205f ||
  c.val = 0x3000

/-- The class `[A-Z]` from the header/footer regex. -/
def isAsciiUpper (c : Char) : Bool := 'A' ≤ c && c ≤ 'Z'

/-- The class `\d` (ASCII digits only, as in JavaScript). -/
def isAsciiDigit (c : Char) : Bool := '0' ≤ c && c ≤ '9'

/-- ASCII-only lowercasing, used for the `/i` flag.  For the literals
`page` and `of` this agrees with JavaScript's canonicalisation: without the
`u` flag a non-ASCII character whose uppercasing is ASCII is *not*
identified with it. -/
def lowerCh (c : Char) : Char :=
  if isAsciiUpper c then Char.ofNat (c.toNat + 32) else c

/-! ## String.prototype primitives -/

/-- `s.split(sep)` for a one-character separator, e.g. `text.split('\n')`
in `formatBulletPoints`.  Always returns at least one (possibly empty)
piece, like JavaScript. -/
def splitOnChar (sep : Char) : List Char → List (List Char)
  | [] => [[]]
  | c :: l =>
    if c = sep then [] :: splitOnChar sep l
    else
      match splitOnChar sep l with
      | h :: t => (c :: h) :: t
      | [] => [[c]]

/-- `parts.join('\n')`. -/
def joinNl : List (List Char) → List Char
  | [] => []
  | [l] => l
  | l :: ls => l ++ '\n' :: joinNl ls

/-- Leading half of `String.prototype.trim`. -/
def trimLeftJs (l : List Char) : List Char := l.dropWhile isJsWs

/-- Trailing half of `String.prototype.trim`, written structurally. -/
def trimRightJs : List Char → List Char
  | [] => []
  | c :: l =>
    match trimRightJs l with
    | [] => if isJsWs c then [] else [c]
    | r => c :: r

/-- `String.prototype.trim`. -/
def trimJs (l : List Char) : List Char := trimLeftJs (trimRightJs l)

/-! ## cleanText (enhancedAiProcessor.ts lines 50–57)

```
return text
  .replace(/Page\s+\d+\s+of\s+\d+/gi, '')
  .replace(/^\s*[A-Z\s]+\s*$/gm, '')
  .replace(/\s+/g, ' ')
  .replace(/\n+/g, '\n')
  .trim();
```
-/

/-- Match a literal case-insensitively at the head; on success return the
rest of the input. -/
def matchLitCI : List Char → List Char → Option (List Char)
  | [], l => some l
  | _ :: _, [] => none
  | p :: ps, c :: l => if lowerCh c = p then matchLitCI ps l else none

/-- Match `\s+` (greedy, maximal) at the head. -/
def matchWs1 : List Char → Option (List Char)
  | [] => none
  | c :: l => if isJsWs c then some (l.dropWhile isJsWs) else none

/-- Match `\d+` (greedy, maximal) at the head. -/
def matchDigits1 : List Char → Option (List Char)
  | [] => none
  | c :: l => if isAsciiDigit c then some (l.dropWhile isAsciiDigit) else none

/-- Match `Page\s+\d+\s+of\s+\d+` (with `/i`) at the head.  Maximal munch
is faithful here: after each `\s+`/`\d+` the next required character is
outside the repeated class, so the greedy engine never backtracks into
them. -/
def tryPage (l : List Char) : Option (List Char) :=
  (((((matchLitCI ['p', 'a', 'g', 'e'] l).bind matchWs1).bind
      matchDigits1).bind matchWs1).bind
        (matchLitCI ['o', 'f'])).bind
          (fun r => (matchWs1 r).bind matchDigits1)

/-- The `g`-flag scan for the page-furniture regex: at each position try a
match; on success drop it and resume after it, otherwise keep the character
and advance by one. -/
def replacePageGo : Nat → List Char → List Char
  | 0, l => l
  | _ + 1, [] => []
  | fuel + 1, c :: l =>
    match tryPage (c :: l) with
    | some rest => replacePageGo fuel rest
    | none => c :: replacePageGo fuel l

/-- `text.replace(/Page\s+\d+\s+of\s+\d+/gi, '')`. -/
def replacePage (l : List Char) : List Char := replacePageGo l.length l

/-- `$` with `/m`: true at end of input or just before a `'\n'`. -/
def lineEnd : List Char → Bool
  | [] => true
  | c :: _ => c = '\n'

/-- The class `[A-Z\s]` (which also contains everything `\s*` can eat). -/
def inCapsClass (c : Char) : Bool := isAsciiUpper c || isJsWs c

/-- Attempt `^\s*[A-Z\s]+\s*$` at a line start.  Every character of a
match lies in `[A-Z\s]`, the match is nonempty and must stop at a `$`
position; the backtracking engine tries end positions from the longest
class run downwards, so the result is the *longest* admissible match.
Returns the suffix after the match together with whether the last matched
character was a `'\n'` (which decides whether the resume position is again
a line start). -/
def capsScan : List Char → Option (Bool × List Char)
  | [] => none
  | c :: l =>
    if inCapsClass c then
      match capsScan l with
      | some r => some r
      | none => if lineEnd l then some (c = '\n', l) else none
    else none

/-- The `g`/`m`-flag scan for the header/footer regex.  `atStart` records
whether the current position is a `^` position (start of input or just
after a `'\n'`). -/
def capsGo : Nat → Bool → List Char → List Char
  | 0, _, l => l
  | _ + 1, _, [] => []
  | fuel + 1, atStart, c :: l =>
    if atStart then
      match capsScan (c :: l) with
      | some (endsNl, rest) =>
        if endsNl then capsGo fuel true rest
        else
          match rest with
          | [] => []
          | r :: rs => r :: capsGo fuel true rs
      | none =>
        if c = '\n' then c :: capsGo fuel true l else c :: capsGo fuel false l
    else if c = '\n' then c :: capsGo fuel true l
    else c :: capsGo fuel false l

/-- `.replace(/^\s*[A-Z\s]+\s*$/gm, '')`. -/
def replaceCaps (l : List Char) : List Char := capsGo l.length true l

/-- `.replace(/\s+/g, ' ')` as a single pass: `prevWs` records whether the
previous character was whitespace (i.e. we are inside a run that has
already emitted its single space). -/
def collapseWsGo (prevWs : Bool) : List Char → List Char
  | [] => []
  | c :: l =>
    if isJsWs c then
      if prevWs then collapseWsGo true l else ' ' :: collapseWsGo true l
    else c :: collapseWsGo false l

/-- `.replace(/\s+/g, ' ')`. -/
def collapseWs (l : List Char) : List Char := collapseWsGo false l

/-- `.replace(/\n+/g, '\n')` as a single pass. -/
def collapseNlGo (prevNl : Bool) : List Char → List Char
  | [] => []
  | c :: l =>
    if c = '\n' then
      if prevNl then collapseNlGo true l else '\n' :: collapseNlGo true l
    else c :: collapseNlGo false l

/-- `.replace(/\n+/g, '\n')`. -/
def collapseNl (l : List Char) : List Char := collapseNlGo false l

/-- `cleanText` from `enhancedAiProcessor.ts` (lines 50–57): the five
steps applied in source order. -/
def cleanText (s : String) : String :=
  ⟨trimJs (collapseNl (collapseWs (replaceCaps (replacePage s.data))))⟩

/-! ## formatBulletPoints (enhancedAiProcessor.ts lines 235–262)

```
const lines = text.split('\n');
for (const line of lines) {
  const trimmed = line.trim();
  if (trimmed.includes('•') && !trimmed.startsWith('•')) {
    const parts = trimmed.split('•');
    if (parts[0].trim()) formattedLines.push(parts[0].trim());
    for (let j = 1; j < parts.length; j++)
      if (parts[j].trim()) formattedLines.push('• ' + parts[j].trim());
  } else if (trimmed.length > 0) formattedLines.push(trimmed);
}
return formattedLines.join('\n')
  .replace(/([^\n•])\n(•)/g, '$1\n\n$2')
  .replace(/\n{3,}/g, '\n\n')
  .trim();
```
-/

/-- The body of the `for (const line of lines)` loop: the list of lines
pushed onto `formattedLines` for one input line. -/
def lineOut (line : List Char) : List (List Char) :=
  let t := trimJs line
  if '•' ∈ t ∧ ¬t.head? = some '•' then
    match splitOnChar '•' t with
    | [] => []
    | p0 :: rest =>
      (if trimJs p0 = [] then [] else [trimJs p0]) ++
        rest.filterMap fun p =>
          if trimJs p = [] then none else some ('•' :: ' ' :: trimJs p)
  else if t = [] then [] else [t]

/-- `.replace(/([^\n•])\n(•)/g, '$1\n\n$2')`: a three-character window
scan; after a match the scan resumes after the `'•'`. -/
def fixBulletBreaks : List Char → List Char
  | [] => []
  | [a] => [a]
  | [a, b] => [a, b]
  | a :: b :: c :: rest =>
    if a ≠ '\n' ∧ a ≠ '•' ∧ b = '\n' ∧ c = '•' then
      a :: '\n' :: '\n' :: '•' :: fixBulletBreaks rest
    else a :: fixBulletBreaks (b :: c :: rest)

/-- `.replace(/\n{3,}/g, '\n\n')` as a single pass: a maximal run of `n`
newlines is emitted as `min n 2` newlines, which is the identity for runs
of length `≤ 2` and yields `'\n\n'` for runs of length `≥ 3`.  `run` is
the number of consecutive newlines seen immediately before the current
position. -/
def squeezeBlankLines (run : Nat) : List Char → List Char
  | [] => []
  | c :: l =>
    if c = '\n' then
      if run ≥ 2 then squeezeBlankLines (run + 1) l
      else '\n' :: squeezeBlankLines (run + 1) l
    else c :: squeezeBlankLines 0 l

/-- `formatBulletPoints` from `enhancedAiProcessor.ts` (lines 235–262). -/
def formatBulletPoints (s : String) : String :=
  ⟨trimJs (squeezeBlankLines 0 (fixBulletBreaks
    (joinNl ((splitOnChar '\n' s.data).flatMap lineOut))))⟩

/-- Line-discipline state machine for bullet markers, used to carry the
bullet-placement invariant through the post-processing passes.  The state
is `none` at a line start, `some true` inside a line that began with `'•'`
(where further markers are tolerated) and `some false` inside a line that
began with any other character (where a marker is a violation). -/
def bulletOk : Option Bool → List Char → Bool
  | _, [] => true
  | mode, c :: l =>
    if c = '\n' then bulletOk none l
    else if c = '•' then
      match mode with
      | some false => false
      | _ => bulletOk (some true) l
    else
      match mode with
      | none => bulletOk (some false) l
      | some m => bulletOk (some m) l

/-- One-character guard of `bulletOk`: the only violation is a `'•'`
inside a line that did not begin with one. -/
def bulletGuard (m : Option Bool) (c : Char) : Bool :=
  !(c = '•' && m == some false)

/-- One-character state transition of `bulletOk`. -/
def bulletStep (m : Option Bool) (c : Char) : Option Bool :=
  if c = '\n' then none
  else if c = '•' then some true
  else
    match m with
    | none => some false
    | some x => some x

/-! ## The result cache (enhancedAiProcessor.ts lines 14–47)

`localStorage` is modelled as an association list from keys to stored
values.  A stored string either parses (`JSON.parse` succeeds and the
record carries the `data`/`timestamp` fields that `setCache` writes) —
constructor `entry` — or fails to parse — constructor `malformed`, which
`getFromCache`'s `catch` turns into a miss.  `Date.now()` is an explicit
`now` argument, and a fallible `localStorage.setItem` (quota exceeded,
etc.) is a `writeFails` flag on `setCache`. -/

inductive StoredVal (α : Type) where
  | entry (data : α) (timestamp : Nat)
  | malformed
deriving DecidableEq

/-- The `localStorage` contents visible to this module. -/
def Store (α : Type) : Type := List (String × StoredVal α)

/-- `const CACHE_EXPIRY = 24 * 60 * 60 * 1000` (milliseconds). -/
def CACHE_EXPIRY : Nat := 24 * 60 * 60 * 1000

/-- `localStorage.removeItem(key)`. -/
def removeItem {α : Type} (s : Store α) (key : String) : Store α :=
  s.filter fun p => p.1 != key

/-- `getFromCache` (lines 22–36): returns the hit-or-miss result together
with the storage state after the read (an expired entry is evicted). -/
def getFromCache {α : Type} (s : Store α) (now : Nat) (key : String) :
    Option α × Store α :=
  match s.lookup key with
  | none => (none, s)
  | some .malformed => (none, s)
  | some (.entry d ts) =>
    if now - ts > CACHE_EXPIRY then (none, removeItem s key) else (some d, s)

/-- `setCache` (lines 38–47): returns the storage state after the write;
a failing `localStorage.setItem` is swallowed by the `catch` and leaves
the store unchanged. -/
def setCache {α : Type} (s : Store α) (now : Nat) (key : String) (d : α)
    (writeFails : Bool) : Store α :=
  if writeFails then s else (key, .entry d now) :: removeItem s key

/-! ## Cache keys (enhancedAiProcessor.ts 18–20, pdfProcessor.ts 10–12) -/

/-- The attributes of a browser `File` object that the two key builders
can observe, plus the byte contents (which they cannot). -/
structure JsFile where
  name : String
  lastModified : Nat
  size : Nat
  content : List Nat

/-- `` `${CACHE_PREFIX}${file.name}_${file.lastModified}_${file.size}` ``. -/
def getCacheKey (f : JsFile) : String :=
  "creditai_cache_" ++ f.name ++ "_" ++ toString f.lastModified ++ "_" ++
    toString f.size

/-- `` `${PDF_CACHE_PREFIX}${file.name}_${file.lastModified}_${file.size}` ``. -/
def getPdfCacheKey (f : JsFile) : String :=
  "creditai_pdf_cache_" ++ f.name ++ "_" ++ toString f.lastModified ++ "_" ++
    toString f.size

/-! ## createVectorStore (enhancedAiProcessor.ts lines 75–120)

The loop body's only fallible operation is the caller-supplied
`onProgress` callback (the `try` block contains no embedding call: it
pushes the batch and reports progress).  `progressFails i` says whether
`onProgress` throws on batch `i`; the `catch` waits and then pushes the
batch a second time.  All embedding happens in the single
`MemoryVectorStore.fromDocuments(processedDocs, embeddings)` call after
the loop, modelled as the function argument `fromDocuments` into an
abstract store type `σ`.  `BuildErr.embeddingFailure` is the error shape
the specification prescribes for a failed batch range; the code never
constructs it, which is what the claim-C1 theorem exhibits. -/

inductive BuildErr where
  | apiFailure (status : Nat)
  | embeddingFailure (firstDoc lastDoc : Nat)
deriving DecidableEq

/-- `const batchSize = 25` (the loop's batch size). -/
def loopBatchSize : Nat := 25

/-- `const totalBatches = Math.ceil(documents.length / batchSize)`. -/
def totalBatches (docs : List String) : Nat :=
  (docs.length + loopBatchSize - 1) / loopBatchSize

/-- `documents.slice(i * batchSize, min((i+1) * batchSize, length))`. -/
def docBatch (docs : List String) (i : Nat) : List String :=
  (docs.drop (i * loopBatchSize)).take loopBatchSize

/-- The `for (let i = 0; i < totalBatches; i++)` loop: batch `i` is pushed
once by the `try` block, and once more by the `catch` when `onProgress`
throws (the push precedes the `onProgress` call, so the batch is already
in `processedDocs` when the exception arrives). -/
def batchLoop (docs : List String) (progressFails : Nat → Bool) :
    Nat → Nat → List String
  | _, 0 => []
  | i, remaining + 1 =>
    (if progressFails i then docBatch docs i ++ docBatch docs i
     else docBatch docs i) ++ batchLoop docs progressFails (i + 1) remaining

/-- The contents of `processedDocs` when the loop finishes. -/
def processedDocs (docs : List String) (progressFails : Nat → Bool) :
    List String :=
  batchLoop docs progressFails 0 (totalBatches docs)

/-- `createVectorStore`: run the batch loop, then embed everything in one
`fromDocuments` call. -/
def createVectorStore {σ : Type} (docs : List String)
    (progressFails : Nat → Bool)
    (fromDocuments : List String → Except BuildErr σ) : Except BuildErr σ :=
  fromDocuments (processedDocs docs progressFails)

/-- Discriminator for the specification's `EmbeddingFailure` shape. -/
def isEmbeddingFailure {σ : Type} : Except BuildErr σ → Bool
  | .error (.embeddingFailure _ _) => true
  | _ => false

/-! ## generateSectionContent and answerQuestionFromReport retries
(enhancedAiProcessor.ts lines 133–232 and 364–443)

One completion-capability call is one `fetch`; `transport i` is the
outcome of the `i`-th `fetch` issued by the recursion.  The model returns
the surfaced result together with the number of `fetch` attempts made and
the list of backoff delays (milliseconds) slept between attempts, so that
the retry policy is part of the observable behaviour. -/

inductive ApiOutcome where
  | success (content : String)
  | httpError (status : Nat)
  | abortError
deriving DecidableEq

inductive CallErr where
  | apiFailure (status : Nat)
  | timeout
deriving DecidableEq

/-- `generateSectionContent` (lines 133–232).  A non-ok response with
status 429 and `retryCount < 3` waits `2^retryCount * 2000` ms and
recurses; any other non-ok response is thrown, and the `catch` retries
after a fixed 1000 ms wait while `retryCount < 2` and otherwise
rethrows.  An `AbortError` (the 30 s timeout) is rethrown as a timeout
error without retrying.  A successful response is post-processed by
`formatBulletPoints`. -/
def generateSectionContent (transport : Nat → ApiOutcome)
    (retryCount attemptIdx : Nat) : Except CallErr String × Nat × List Nat :=
  match transport attemptIdx with
  | .success content => (.ok (formatBulletPoints content), 1, [])
  | .abortError => (.error .timeout, 1, [])
  | .httpError status =>
    if h : status = 429 ∧ retryCount < 3 then
      let r := generateSectionContent transport (retryCount + 1) (attemptIdx + 1)
      (r.1, r.2.1 + 1, 2 ^ retryCount * 2000 :: r.2.2)
    else if h2 : retryCount < 2 then
      let r := generateSectionContent transport (retryCount + 1) (attemptIdx + 1)
      (r.1, r.2.1 + 1, 1000 :: r.2.2)
    else (.error (.apiFailure status), 1, [])
termination_by 4 - retryCount
decreasing_by all_goals omega

/-- The completion call of `answerQuestionFromReport` (lines 388–441):
a single `fetch`; a non-ok response of any status throws immediately
(there is no retry path), and an `AbortError` is converted into a
friendly answer string rather than an error. -/
def answerQuestionFromReport (transport : Nat → ApiOutcome) :
    Except CallErr String × Nat :=
  (match transport 0 with
   | .success content => .ok content
   | .abortError =>
     .ok "The request timed out. Please try asking a simpler question."
   | .httpError status => .error (.apiFailure status), 1)

/-! ## generateEnhancedReportSections (enhancedAiProcessor.ts lines
265–361), generation path

The per-section pipeline (retrieval plus `generateSectionContent`) is
abstracted as `gen : SectionType → Except CallErr String`.  The four
promises are joined by `Promise.all` and the results folded into a
`ReportSections` record initialised with empty strings, exactly as in the
source; the outer `try`/`catch` rethrows, so an error propagates
unchanged.  (The cache-hit early return, which concerns claims C4/C10, is
modelled by `getFromCache`/`setCache` above.)  The server-side
`generateReportSections` of `server/aiProcessor.js` has the same
`Promise.all` join over the same four section types. -/

inductive SectionType where
  | overview
  | financialHighlights
  | keyRisks
  | managementCommentary
deriving DecidableEq

structure ReportSections where
  overview : String
  financialHighlights : String
  keyRisks : String
  managementCommentary : String
deriving DecidableEq

/-- `const sectionTypes = ['overview', 'financialHighlights', 'keyRisks',
'managementCommentary']`. -/
def sectionTypes : List SectionType :=
  [.overview, .financialHighlights, .keyRisks, .managementCommentary]

/-- `Promise.all`: the join of settled outcomes — the first rejection, or
the list of all fulfilment values. -/
def promiseAll {ε α : Type} : List (Except ε α) → Except ε (List α)
  | [] => .ok []
  | .error e :: _ => .error e
  | .ok a :: rest => (promiseAll rest).map (a :: ·)

/-- `sections[sectionType] = content`. -/
def setSection (r : ReportSections) : SectionType → String → ReportSections
  | .overview, c => ⟨c, r.financialHighlights, r.keyRisks, r.managementCommentary⟩
  | .financialHighlights, c => ⟨r.overview, c, r.keyRisks, r.managementCommentary⟩
  | .keyRisks, c => ⟨r.overview, r.financialHighlights, c, r.managementCommentary⟩
  | .managementCommentary, c => ⟨r.overview, r.financialHighlights, r.keyRisks, c⟩

/-- The `Promise.all` join and assembly of `generateEnhancedReportSections`. -/
def generateEnhancedReportSections (gen : SectionType → Except CallErr String) :
    Except CallErr ReportSections :=
  match promiseAll (sectionTypes.map fun t => (gen t).map fun c => (t, c)) with
  | .error e => .error e
  | .ok results =>
    .ok (results.foldl (fun acc tc => setSection acc tc.1 tc.2) ⟨"", "", "", ""⟩)

/-! ## The semantic chunker (claim C7)

Modelled from the spec: `splitTextIntoSemanticChunks` (enhancedAiProcessor.ts
lines 60–72) delegates entirely to `RecursiveCharacterTextSplitter` from the
third-party `langchain` package, whose implementation is not part of this
repository; only its caller is.  The model below follows §4.2 of the
specification: recursively split text no larger than the target as a single
chunk; otherwise prefer the coarsest separator (from the source's ordered
list `['\n\n','\n','. ','! ','? ','; ',': ',' ','']`) that occurs in the
text, split on it (dropping empty pieces, since the spec guarantees no empty
chunks), and recurse on the pieces with the finer separators that remain in
them; where no separator occurs, fall back to hard character splitting, a
sliding window of `targetSize` characters advancing by
`targetSize - overlap` so that adjacent chunks share an overlap region.
The spec's §4.2 gives no rule for re-merging small pieces, so pieces are
not merged.  Fuel bounds the recursion depth; the wrappers pass the text
length, which suffices because every recursive call is on a strictly
shorter list. -/

/-- Match a literal separator at the head; on success return the rest. -/
def matchSeq : List Char → List Char → Option (List Char)
  | [], l => some l
  | _ :: _, [] => none
  | p :: ps, c :: l => if c = p then matchSeq ps l else none

/-- Does `sep` occur anywhere in `l`? -/
def seqOccurs (sep : List Char) : List Char → Bool
  | [] => false
  | c :: l => (matchSeq sep (c :: l)).isSome || seqOccurs sep l

/-- `text.split(sep)` for a multi-character separator (leftmost,
non-overlapping). -/
def splitOnSeqGo (sep : List Char) : Nat → List Char → List (List Char)
  | _, [] => [[]]
  | 0, l => [l]
  | fuel + 1, c :: l =>
    match matchSeq sep (c :: l) with
    | some rest => [] :: splitOnSeqGo sep fuel rest
    | none =>
      match splitOnSeqGo sep fuel l with
      | h :: t => (c :: h) :: t
      | [] => [[c]]

/-- `text.split(sep)`. -/
def splitOnSeq (sep : List Char) (l : List Char) : List (List Char) :=
  splitOnSeqGo sep l.length l

/-- The source's separator list, coarsest first (the final `''` entry is
the hard-split fallback, handled separately). -/
def chunkSeparators : List (List Char) :=
  [['\n', '\n'], ['\n'], ['.', ' '], ['!', ' '], ['?', ' '], [';', ' '],
   [':', ' '], [' ']]

/-- The coarsest separator that occurs in the text, if any. -/
def firstChunkSep (l : List Char) : Option (List Char) :=
  chunkSeparators.find? fun sep => seqOccurs sep l

/-- Hard character splitting: windows of `target` characters, advancing
by `stride = target - overlap`. -/
def hardSplitGo (target stride : Nat) : Nat → List Char → List (List Char)
  | 0, l => if l = [] then [] else [l]
  | fuel + 1, l =>
    if l.length ≤ target then (if l = [] then [] else [l])
    else l.take target :: hardSplitGo target stride fuel (l.drop stride)

/-- Recursive splitting as described in spec §4.2. -/
def splitRecGo (target stride : Nat) : Nat → List Char → List (List Char)
  | 0, l => if l = [] then [] else [l]
  | fuel + 1, l =>
    if l.length ≤ target then (if l = [] then [] else [l])
    else
      match firstChunkSep l with
      | some sep =>
        ((splitOnSeq sep l).filter (fun p => p ≠ [])).flatMap
          (splitRecGo target stride fuel)
      | none => hardSplitGo target stride l.length l

/-- Modelled from the spec: the semantic chunker of §4.2, parameterised by
`targetSize` and `overlap` (the source instantiates them at 1200 and 150). -/
def splitTextIntoSemanticChunks (target overlap : Nat) (l : List Char) :
    List (List Char) :=
  splitRecGo target (target - overlap) l.length l

/-- `ceil(a / b)` as used in the claimed chunk-count bound. -/
def ceilDiv (a b : Nat) : Nat := (a + b - 1) / b

/-! ## Normal forms used in the idempotence analysis of `cleanText` -/

/-- The first character, if any, is not JavaScript whitespace. -/
def headNotWs : List Char → Bool
  | [] => true
  | c :: _ => !isJsWs c

/-- The last character, if any, is not JavaScript whitespace. -/
def lastNotWs (l : List Char) : Bool :=
  match l.getLast? with
  | none => true
  | some c => !isJsWs c

/-- Whitespace-collapsed form: every whitespace character is a single
space and no whitespace character is followed by another.  This is the
invariant `\s+ → ' '` establishes and the shape on which it is the
identity. -/
def wsNormB : List Char → Bool
  | [] => true
  | c :: l => (!isJsWs c || (c = ' ' && headNotWs l)) && wsNormB l

/-! ## Helper lemmas: whitespace collapsing and trimming -/

/-- The whitespace-collapsing pass emits only single spaces for whitespace,
so its output never contains a newline. -/
theorem collapseWsGo_ne_nl (l : List Char) : ∀ b, '\n' ∉ collapseWsGo b l := by
  induction l with
  | nil => intro b h; simp [collapseWsGo] at h
  | cons c l ih =>
    intro b
    by_cases hc : isJsWs c
    · cases b with
      | true => simpa [collapseWsGo, hc] using ih true
      | false =>
        simp only [collapseWsGo, hc, if_true]
        intro h
        rcases List.mem_cons.mp h with h | h
        · exact absurd h.symm (by decide)
        · exact ih true h
    · simp only [collapseWsGo, hc, if_false]
      intro h
      rcases List.mem_cons.mp h with h | h
      · subst h; exact hc (by decide)
      · exact ih false h

/-- Collapsing newline runs is the identity on newline-free text. -/
theorem collapseNlGo_of_ne_nl {l : List Char} (h : '\n' ∉ l) (b : Bool) :
    collapseNlGo b l = l := by
  induction l generalizing b with
  | nil => rfl
  | cons c l ih =>
    have hc : ¬c = '\n' := fun he => h (he ▸ List.mem_cons_self c l)
    have hl : '\n' ∉ l := fun hm => h (List.mem_cons_of_mem c hm)
    simp [collapseNlGo, hc, ih hl]

theorem mem_trimRightJs {a : Char} : ∀ {l : List Char}, a ∈ trimRightJs l → a ∈ l := by
  intro l
  induction l with
  | nil => simp [trimRightJs]
  | cons c l ih =>
    intro h
    simp only [trimRightJs] at h
    rcases he : trimRightJs l with _ | ⟨r, rs⟩
    · rw [he] at h
      by_cases hc : isJsWs c
      · simp [hc] at h
      · simp [hc] at h; exact h ▸ List.mem_cons_self c l
    · rw [he] at h
      rcases List.mem_cons.mp h with h | h
      · exact h ▸ List.mem_cons_self c l
      · exact List.mem_cons_of_mem c (ih (he ▸ h))

theorem mem_trimLeftJs {a : Char} {l : List Char} (h : a ∈ trimLeftJs l) : a ∈ l :=
  (List.dropWhile_sublist isJsWs).mem h

theorem mem_trimJs {a : Char} {l : List Char} (h : a ∈ trimJs l) : a ∈ l :=
  mem_trimRightJs (mem_trimLeftJs h)

/-! ## Claim C9 -/

/-- Claim C9 (confirmed): for every input string, `cleanText` returns a
string with no newline character: the `\s+ → ' '` step replaces every
whitespace run (newlines included) by a single space, so the following
`\n+ → '\n'` step has nothing to act on and the result is a single line. -/
theorem cleanText_single_line (s : String) : '\n' ∉ (cleanText s).data := by
  intro h
  have h1 : '\n' ∉ collapseWs (replaceCaps (replacePage s.data)) :=
    collapseWsGo_ne_nl _ false
  have h2 := mem_trimJs (l := collapseNl (collapseWs (replaceCaps (replacePage s.data)))) h
  rw [collapseNl, collapseNlGo_of_ne_nl h1] at h2
  exact h1 h2

/-! ## Claim C4 -/

/-- Claim C4 (confirmed): an entry written by `setCache` at time `T` (with
the storage write succeeding) is a hit when read 23 h 59 m later, and a
miss when read 24 h 01 m later; the expired read also evicts the entry,
and eviction happens on no other path of the model (reads of fresh
entries and writes leave other keys untouched). -/
theorem cache_ttl {α : Type} (s : Store α) (key : String) (d : α) (T : Nat) :
    getFromCache (setCache s T key d false) (T + 86340000) key =
      (some d, setCache s T key d false) ∧
    getFromCache (setCache s T key d false) (T + 86460000) key =
      (none, removeItem (setCache s T key d false) key) := by
  have hk : (setCache s T key d false).lookup key = some (.entry d T) := by
    simp [setCache, List.lookup]
  constructor
  · simp only [getFromCache, hk]
    rw [if_neg (by simp only [CACHE_EXPIRY, gt_iff_lt]; omega)]
  · simp only [getFromCache, hk]
    rw [if_pos (by simp only [CACHE_EXPIRY, gt_iff_lt]; omega)]

/-! ## Claim C10 -/

/-- Claim C10 (confirmed): the cache operations are total.  `getFromCache`
returns a miss (and leaves the store unchanged) for an absent key and for
a stored value that `JSON.parse` cannot parse; it evicts and misses on an
expired entry, and hits on a fresh one — in every case it returns rather
than throws.  `setCache` with a failing `localStorage.setItem` swallows
the exception and leaves the store unchanged, and with a succeeding write
replaces the entry for that key. -/
theorem cache_ops_total {α : Type} (s : Store α) (key : String) (now : Nat)
    (d : α) :
    (s.lookup key = none → getFromCache s now key = (none, s)) ∧
    (s.lookup key = some .malformed → getFromCache s now key = (none, s)) ∧
    (∀ d0 ts, s.lookup key = some (.entry d0 ts) → now - ts > CACHE_EXPIRY →
      getFromCache s now key = (none, removeItem s key)) ∧
    (∀ d0 ts, s.lookup key = some (.entry d0 ts) → ¬now - ts > CACHE_EXPIRY →
      getFromCache s now key = (some d0, s)) ∧
    setCache s now key d true = s ∧
    setCache s now key d false = (key, .entry d now) :: removeItem s key := by
  refine ⟨fun h => ?_, fun h => ?_, fun d0 ts h hexp => ?_,
    fun d0 ts h hexp => ?_, rfl, rfl⟩
  · simp [getFromCache, h]
  · simp [getFromCache, h]
  · simp [getFromCache, h, hexp]
  · simp [getFromCache, h, hexp]

/-- Witness for C10 at a concrete store holding an unparsable value. -/
theorem cache_ops_total_witness :
    getFromCache [("k", (StoredVal.malformed : StoredVal Nat))] 0 "k" =
      (none, [("k", StoredVal.malformed)]) :=
  (cache_ops_total [("k", (StoredVal.malformed : StoredVal Nat))] "k" 0 0).2.1
    rfl

/-! ## Claim C8 -/

/-- Claim C8 (confirmed): both cache-key builders read only the file's
name, size and last-modified timestamp — two files agreeing on those three
attributes get the same key whatever their byte contents. -/
theorem cache_key_metadata_only (f g : JsFile) (hn : f.name = g.name)
    (hs : f.size = g.size) (hm : f.lastModified = g.lastModified) :
    getCacheKey f = getCacheKey g ∧ getPdfCacheKey f = getPdfCacheKey g := by
  simp [getCacheKey, getPdfCacheKey, hn, hs, hm]

/-- Witness for C8: two files with identical metadata but different byte
contents receive identical keys from both builders. -/
theorem cache_key_metadata_only_witness :
    getCacheKey ⟨"r.pdf", 5, 2, [0, 1]⟩ = getCacheKey ⟨"r.pdf", 5, 2, [9, 9]⟩ ∧
    getPdfCacheKey ⟨"r.pdf", 5, 2, [0, 1]⟩ =
      getPdfCacheKey ⟨"r.pdf", 5, 2, [9, 9]⟩ :=
  cache_key_metadata_only ⟨"r.pdf", 5, 2, [0, 1]⟩ ⟨"r.pdf", 5, 2, [9, 9]⟩
    rfl rfl rfl

/-! ## Claim C5 -/

/-- Claim C5 (confirmed): the `Promise.all` join makes report generation
all-or-nothing — for every outcome of the four per-section generations,
either some section failed and the whole call surfaces exactly that
(single) error, or all four succeeded and the caller receives a
`ReportSections` whose four fields are exactly the four generated
contents; no partially-filled record is ever returned. -/
theorem report_all_or_nothing (gen : SectionType → Except CallErr String) :
    (∃ t e, gen t = .error e ∧
      generateEnhancedReportSections gen = .error e) ∨
    (∃ a b c d, gen .overview = .ok a ∧ gen .financialHighlights = .ok b ∧
      gen .keyRisks = .ok c ∧ gen .managementCommentary = .ok d ∧
      generateEnhancedReportSections gen = .ok ⟨a, b, c, d⟩) := by
  rcases ho : gen .overview with eo | a
  · exact .inl ⟨_, _, ho, by
      simp [generateEnhancedReportSections, sectionTypes, promiseAll, ho,
        Except.map]⟩
  rcases hf : gen .financialHighlights with ef | b
  · exact .inl ⟨_, _, hf, by
      simp [generateEnhancedReportSections, sectionTypes, promiseAll, ho, hf,
        Except.map]⟩
  rcases hk : gen .keyRisks with ek | c
  · exact .inl ⟨_, _, hk, by
      simp [generateEnhancedReportSections, sectionTypes, promiseAll, ho, hf,
        hk, Except.map]⟩
  rcases hm : gen .managementCommentary with em | d
  · exact .inl ⟨_, _, hm, by
      simp [generateEnhancedReportSections, sectionTypes, promiseAll, ho, hf,
        hk, hm, Except.map]⟩
  exact .inr ⟨a, b, c, d, rfl, rfl, rfl, rfl, by
    simp [generateEnhancedReportSections, sectionTypes, promiseAll, ho, hf,
      hk, hm, Except.map, setSection]⟩

/-! ## Claim C1 -/

/-- Claim C1 (code bug): with an embedding provider that always answers
HTTP 429, `createVectorStore` fails with the provider's raw error from the
single end-of-loop `fromDocuments` call — not with any `EmbeddingFailure`
naming a batch range — because the batch loop performs no embedding at
all: its `try` block only pushes the batch and reports progress, and its
`catch` "retry" merely pushes the same batch a second time after a delay
(shown here: a progress failure on batch 0 of a 26-document input makes
the first 25 documents appear twice, 51 documents in total, with no
second embedding attempt anywhere). -/
theorem createVectorStore_always_429 :
    createVectorStore ["chunk0"] (fun _ => false)
        (fun _ => (.error (.apiFailure 429) : Except BuildErr Unit)) =
      .error (.apiFailure 429) ∧
    isEmbeddingFailure (createVectorStore ["chunk0"] (fun _ => false)
        (fun _ => (.error (.apiFailure 429) : Except BuildErr Unit))) = false ∧
    processedDocs ((List.range 26).map toString) (fun i => i = 0) =
      ((List.range 26).map toString).take 25 ++
        ((List.range 26).map toString).take 25 ++
        ((List.range 26).map toString).drop 25 ∧
    (processedDocs ((List.range 26).map toString) (fun i => i = 0)).length
      = 51 := by
  refine ⟨rfl, rfl, by decide, by decide⟩

/-! ## Claim C6 -/

/-- Counterexample to claim C6: the resilience policy is *not* applied to
every completion-capability call.  The Q&A call surfaces an HTTP 429 as an
error after exactly one attempt — no retry, no backoff — while the
section-generation call given the same always-429 transport retries three
times with doubling delays before failing. -/
theorem retry_policy_counterexample :
    answerQuestionFromReport (fun _ => .httpError 429) =
      (.error (.apiFailure 429), 1) ∧
    generateSectionContent (fun _ => .httpError 429) 0 0 =
      (.error (.apiFailure 429), 4, [2000, 4000, 8000]) := by
  refine ⟨rfl, ?_⟩
  simp [generateSectionContent]

/-- Claim C6 (corrected): the retry policy holds for section generation —
an always-429 transport is retried 3 times with exponentially doubling
backoff (2 s, 4 s, 8 s) before an error carrying status 429 surfaces; any
other repeated non-2xx status is retried twice with a fixed 1 s delay
before an error carrying that status surfaces; a success after `k ≤ 3`
rate-limited attempts is returned with no error.  The Q&A completion
call, by contrast, performs no retries: any non-2xx status surfaces
immediately after the single attempt. -/
theorem retry_policy_amended (t : Nat → ApiOutcome) :
    ((∀ i, i ≤ 3 → t i = .httpError 429) →
      generateSectionContent t 0 0 =
        (.error (.apiFailure 429), 4, [2000, 4000, 8000])) ∧
    (∀ s, s ≠ 429 → (∀ i, i ≤ 2 → t i = .httpError s) →
      generateSectionContent t 0 0 =
        (.error (.apiFailure s), 3, [1000, 1000])) ∧
    (∀ k c, k ≤ 3 → (∀ i, i < k → t i = .httpError 429) → t k = .success c →
      generateSectionContent t 0 0 =
        (.ok (formatBulletPoints c), k + 1, List.take k [2000, 4000, 8000])) ∧
    (∀ s, t 0 = .httpError s →
      answerQuestionFromReport t = (.error (.apiFailure s), 1)) := by
  refine ⟨fun h => ?_, fun s hs h => ?_, fun k c hk h hsucc => ?_,
    fun s h => ?_⟩
  · have e0 : t 0 = .httpError 429 := h 0 (by omega)
    have e1 : t 1 = .httpError 429 := h 1 (by omega)
    have e2 : t 2 = .httpError 429 := h 2 (by omega)
    have e3 : t 3 = .httpError 429 := h 3 (by omega)
    simp [generateSectionContent, e0, e1, e2, e3]
  · have e0 : t 0 = .httpError s := h 0 (by omega)
    have e1 : t 1 = .httpError s := h 1 (by omega)
    have e2 : t 2 = .httpError s := h 2 (by omega)
    simp [generateSectionContent, e0, e1, e2, hs]
  · interval_cases k
    · simp [generateSectionContent, hsucc]
    · have e0 : t 0 = .httpError 429 := h 0 (by omega)
      simp [generateSectionContent, e0, hsucc]
    · have e0 : t 0 = .httpError 429 := h 0 (by omega)
      have e1 : t 1 = .httpError 429 := h 1 (by omega)
      simp [generateSectionContent, e0, e1, hsucc]
    · have e0 : t 0 = .httpError 429 := h 0 (by omega)
      have e1 : t 1 = .httpError 429 := h 1 (by omega)
      have e2 : t 2 = .httpError 429 := h 2 (by omega)
      simp [generateSectionContent, e0, e1, e2, hsucc]
  · simp [answerQuestionFromReport, h]

/-- Witness for the amended C6 policy: a transport that is rate-limited
twice and then succeeds yields the success after three attempts with the
two exponential delays. -/
theorem retry_policy_amended_witness :
    generateSectionContent
        (fun i => if i < 2 then .httpError 429 else .success "x") 0 0 =
      (.ok (formatBulletPoints "x"), 3, [2000, 4000]) := by
  have := (retry_policy_amended
    (fun i => if i < 2 then .httpError 429 else .success "x")).2.2.1 2 "x"
    (by omega) (fun i hi => by simp [hi]) (by simp)
  simpa using this

/-! ## Helper lemmas: whitespace normal form and trimming -/

theorem wsNormB_tail {c : Char} {l : List Char} (h : wsNormB (c :: l) = true) :
    wsNormB l = true := by
  simp only [wsNormB, Bool.and_eq_true] at h
  exact h.2

theorem headNotWs_collapseWsGo_true (l : List Char) :
    headNotWs (collapseWsGo true l) = true := by
  induction l with
  | nil => rfl
  | cons c l ih =>
    by_cases hc : isJsWs c
    · simpa [collapseWsGo, hc] using ih
    · simp [collapseWsGo, hc, headNotWs]

theorem wsNormB_collapseWsGo (l : List Char) : ∀ b, wsNormB (collapseWsGo b l) = true := by
  induction l with
  | nil => intro b; rfl
  | cons c l ih =>
    intro b
    by_cases hc : isJsWs c
    · cases b with
      | true => simpa [collapseWsGo, hc] using ih true
      | false =>
        simp only [collapseWsGo, hc, if_true]
        simp only [wsNormB, Bool.and_eq_true]
        refine ⟨?_, ih true⟩
        simp [headNotWs_collapseWsGo_true l, isJsWs]
    · simp only [collapseWsGo, hc, if_false]
      simp only [wsNormB, Bool.and_eq_true]
      exact ⟨by simp [hc], ih false⟩

theorem wsNormB_head_ws {c : Char} {l : List Char} (h : wsNormB (c :: l) = true)
    (hc : isJsWs c = true) : c = ' ' ∧ headNotWs l = true := by
  simp only [wsNormB, Bool.and_eq_true, Bool.or_eq_true, Bool.not_eq_true'] at h
  rcases h.1 with h1 | h1
  · rw [hc] at h1; cases h1
  · exact ⟨by simpa using h1.1, h1.2⟩

theorem collapseWsGo_of_wsNormB :
    ∀ l : List Char, wsNormB l = true →
      collapseWsGo false l = l ∧
        (headNotWs l = true → collapseWsGo true l = l) := by
  intro l
  induction l with
  | nil => intro _; exact ⟨rfl, fun _ => rfl⟩
  | cons c l ih =>
    intro h
    have hl := wsNormB_tail h
    rcases ih hl with ⟨ihf, iht⟩
    constructor
    · by_cases hc : isJsWs c
      · rcases wsNormB_head_ws h hc with ⟨hsp, hhd⟩
        subst hsp
        simp [collapseWsGo, iht hhd, show isJsWs ' ' = true by decide]
      · simp [collapseWsGo, hc, ihf]
    · intro hh
      simp only [headNotWs, Bool.not_eq_true'] at hh
      simp [collapseWsGo, hh, ihf]

theorem headNotWs_trimLeftJs (l : List Char) : headNotWs (trimLeftJs l) = true := by
  induction l with
  | nil => rfl
  | cons c l ih =>
    by_cases hc : isJsWs c
    · simpa [trimLeftJs, List.dropWhile_cons, hc] using ih
    · simp [trimLeftJs, List.dropWhile_cons, hc, headNotWs]

theorem trimLeftJs_of_headNotWs {l : List Char} (h : headNotWs l = true) :
    trimLeftJs l = l := by
  cases l with
  | nil => rfl
  | cons c l =>
    simp only [headNotWs] at h
    simp [trimLeftJs, List.dropWhile_cons, show ¬isJsWs c = true by simpa using h]

theorem trimRightJs_head {c : Char} {l : List Char} :
    trimRightJs (c :: l) = [] ∨ (trimRightJs (c :: l)).head? = some c := by
  simp only [trimRightJs]
  rcases trimRightJs l with _ | ⟨r, rs⟩
  · by_cases hc : isJsWs c
    · exact .inl (by simp [hc])
    · exact .inr (by simp [hc])
  · exact .inr rfl

theorem lastNotWs_trimRightJs (l : List Char) : lastNotWs (trimRightJs l) = true := by
  induction l with
  | nil => rfl
  | cons c l ih =>
    simp only [trimRightJs]
    rcases he : trimRightJs l with _ | ⟨r, rs⟩
    · by_cases hc : isJsWs c
      · simp [hc, lastNotWs]
      · simp [hc, lastNotWs, List.getLast?]
    · rw [he] at ih
      simpa [lastNotWs, List.getLast?_cons_cons] using ih

theorem trimRightJs_of_lastNotWs :
    ∀ {l : List Char}, lastNotWs l = true → trimRightJs l = l := by
  intro l
  induction l with
  | nil => intro _; rfl
  | cons c l ih =>
    intro h
    cases l with
    | nil =>
      simp only [lastNotWs, List.getLast?] at h
      simp [trimRightJs, show ¬isJsWs c = true by simpa using h]
    | cons d m =>
      have hl : lastNotWs (d :: m) = true := by
        simpa [lastNotWs, List.getLast?_cons_cons] using h
      rw [trimRightJs, ih hl]

theorem lastNotWs_trimLeftJs {l : List Char} (h : lastNotWs l = true) :
    lastNotWs (trimLeftJs l) = true := by
  induction l with
  | nil => exact h
  | cons c l ih =>
    by_cases hc : isJsWs c
    · have : trimLeftJs (c :: l) = trimLeftJs l := by
        simp [trimLeftJs, List.dropWhile_cons, hc]
      rw [this]
      cases l with
      | nil => rfl
      | cons d m =>
        exact ih (by simpa [lastNotWs, List.getLast?_cons_cons] using h)
    · simp [trimLeftJs, List.dropWhile_cons, hc]
      exact h

theorem wsNormB_trimLeftJs {l : List Char} (h : wsNormB l = true) :
    wsNormB (trimLeftJs l) = true := by
  induction l with
  | nil => exact h
  | cons c l ih =>
    by_cases hc : isJsWs c
    · have : trimLeftJs (c :: l) = trimLeftJs l := by
        simp [trimLeftJs, List.dropWhile_cons, hc]
      rw [this]
      exact ih (wsNormB_tail h)
    · simpa [trimLeftJs, List.dropWhile_cons, hc] using h

/-- A nonempty `trimRightJs` output starts with the input's first
character. -/
theorem head?_trimRightJs {l : List Char} {r : Char} {rs : List Char}
    (he : trimRightJs l = r :: rs) : l.head? = some r := by
  cases l with
  | nil => simp [trimRightJs] at he
  | cons d m =>
    rcases trimRightJs_head (c := d) (l := m) with h0 | h0
    · rw [he] at h0; cases h0
    · rw [he] at h0
      simp only [List.head?, Option.some.injEq] at h0
      simp [List.head?, h0]

theorem wsNormB_trimRightJs : ∀ {l : List Char}, wsNormB l = true →
    wsNormB (trimRightJs l) = true := by
  intro l
  induction l with
  | nil => intro _; rfl
  | cons c l ih =>
    intro h
    have hl := wsNormB_tail h
    have htr := ih hl
    rw [trimRightJs]
    rcases he : trimRightJs l with _ | ⟨r, rs⟩
    · by_cases hc : isJsWs c
      · simp [hc, wsNormB]
      · simp [hc, wsNormB, headNotWs]
    · rw [he] at htr
      by_cases hc : isJsWs c
      · rcases wsNormB_head_ws h hc with ⟨hsp, hhd⟩
        have hdr := head?_trimRightJs he
        have hr : isJsWs r = false := by
          cases l with
          | nil => simp at hdr
          | cons d m =>
            simp only [List.head?, Option.some.injEq] at hdr
            subst hdr
            simpa [headNotWs, Bool.not_eq_true'] using hhd
        have htr2 := htr
        simp only [wsNormB, Bool.and_eq_true, Bool.or_eq_true,
          Bool.not_eq_true'] at htr2 ⊢
        exact ⟨Or.inr ⟨by simpa using hsp, by simp [headNotWs, hr]⟩, htr2⟩
      · have htr2 := htr
        simp only [wsNormB, Bool.and_eq_true, Bool.or_eq_true,
          Bool.not_eq_true'] at htr2 ⊢
        exact ⟨Or.inl (by simpa using hc), htr2⟩

/-! ## Claim C3 -/

/-- Counterexample to claim C3: `cleanText` is not idempotent.  Removing
the page-furniture match `Page 1 of 2` from the input splices the
surrounding characters into a fresh `Page 3 of 4` occurrence, which
survives the first pass and is removed by the second:
`cleanText` maps the input to `"a Page 3 of 4 b"`, and maps that to
`"a b"`. -/
theorem cleanText_not_idempotent :
    cleanText "a PagPage 1 of 2e 3 of 4 b" = "a Page 3 of 4 b" ∧
    cleanText "a Page 3 of 4 b" = "a b" ∧
    ("a Page 3 of 4 b" == "a b") = false := by
  refine ⟨by decide, by decide, by decide⟩

/-- Claim C3 (corrected): `cleanText` is idempotent exactly on the inputs
where the two furniture-removal regexes find nothing new in the output:
whenever the page-pattern pass and the all-caps-line pass leave
`cleanText s` unchanged, a second `cleanText` is the identity, because
the whitespace-collapsing, newline-collapsing and trimming steps are
idempotent as a composition.  (The counterexample shows the hypothesis
can genuinely fail: furniture removal can create new furniture.) -/
theorem cleanText_conditionally_idempotent (s : String)
    (hp : replacePage (cleanText s).data = (cleanText s).data)
    (hcaps : replaceCaps (cleanText s).data = (cleanText s).data) :
    cleanText (cleanText s) = cleanText s := by
  have hw : '\n' ∉ collapseWs (replaceCaps (replacePage s.data)) :=
    collapseWsGo_ne_nl _ false
  have hy : (cleanText s).data =
      trimJs (collapseWs (replaceCaps (replacePage s.data))) := by
    show trimJs (collapseNl (collapseWs (replaceCaps (replacePage s.data)))) = _
    rw [collapseNl, collapseNlGo_of_ne_nl hw]
  have hnorm : wsNormB (cleanText s).data = true := by
    rw [hy]
    exact wsNormB_trimLeftJs (wsNormB_trimRightJs (wsNormB_collapseWsGo _ false))
  have hnl : '\n' ∉ (cleanText s).data := by
    rw [hy]
    intro hmem
    exact hw (mem_trimJs hmem)
  have hcw : collapseWs (cleanText s).data = (cleanText s).data :=
    (collapseWsGo_of_wsNormB _ hnorm).1
  have hcn : collapseNl (cleanText s).data = (cleanText s).data :=
    collapseNlGo_of_ne_nl hnl false
  have hlast : lastNotWs (cleanText s).data = true := by
    rw [hy]
    exact lastNotWs_trimLeftJs (lastNotWs_trimRightJs _)
  have hhead : headNotWs (cleanText s).data = true := by
    rw [hy]
    exact headNotWs_trimLeftJs _
  have htr : trimJs (cleanText s).data = (cleanText s).data := by
    rw [trimJs, trimRightJs_of_lastNotWs hlast, trimLeftJs_of_headNotWs hhead]
  show (⟨trimJs (collapseNl (collapseWs (replaceCaps
    (replacePage (cleanText s).data))))⟩ : String) = cleanText s
  rw [hp, hcaps, hcw, hcn, htr]

/-- Witness for the amended C3: on an input whose cleaned form contains no
fresh furniture, `cleanText` is idempotent. -/
theorem cleanText_conditionally_idempotent_witness :
    cleanText (cleanText "hello world") = cleanText "hello world" :=
  cleanText_conditionally_idempotent "hello world" (by decide) (by decide)

/-! ## Helper lemmas: splitting, joining and the bullet line discipline -/

theorem splitOnChar_ne_nil (sep : Char) : ∀ l : List Char, splitOnChar sep l ≠ [] := by
  intro l
  cases l with
  | nil => simp [splitOnChar]
  | cons c l =>
    by_cases hc : c = sep
    · simp [splitOnChar, hc]
    · simp only [splitOnChar, hc, if_false]
      rcases splitOnChar sep l with _ | ⟨h, t⟩ <;> simp

theorem mem_splitOnChar_not_sep {sep : Char} :
    ∀ {l : List Char}, ∀ p ∈ splitOnChar sep l, sep ∉ p := by
  intro l
  induction l with
  | nil => intro p hp; simp [splitOnChar] at hp; simp [hp]
  | cons c l ih =>
    intro p hp
    by_cases hc : c = sep
    · simp only [splitOnChar, hc, if_true] at hp
      rcases List.mem_cons.mp hp with h | h
      · simp [h]
      · exact ih p h
    · simp only [splitOnChar, hc, if_false] at hp
      rcases he : splitOnChar sep l with _ | ⟨h, t⟩
      · exact absurd he (splitOnChar_ne_nil sep l)
      · rw [he] at hp
        rcases List.mem_cons.mp hp with h1 | h1
        · subst h1
          intro hmem
          rcases List.mem_cons.mp hmem with h2 | h2
          · exact hc h2.symm
          · exact ih h (by rw [he]; exact List.mem_cons_self h t) h2
        · exact ih p (by rw [he]; exact List.mem_cons_of_mem h h1)

theorem mem_of_mem_splitOnChar {sep a : Char} :
    ∀ {l : List Char}, ∀ p ∈ splitOnChar sep l, a ∈ p → a ∈ l := by
  intro l
  induction l with
  | nil => intro p hp ha; simp [splitOnChar] at hp; subst hp; cases ha
  | cons c l ih =>
    intro p hp ha
    by_cases hc : c = sep
    · simp only [splitOnChar, hc, if_true] at hp
      rcases List.mem_cons.mp hp with h | h
      · subst h; cases ha
      · exact List.mem_cons_of_mem c (ih p h ha)
    · simp only [splitOnChar, hc, if_false] at hp
      rcases he : splitOnChar sep l with _ | ⟨h, t⟩
      · exact absurd he (splitOnChar_ne_nil sep l)
      · rw [he] at hp
        rcases List.mem_cons.mp hp with h1 | h1
        · subst h1
          rcases List.mem_cons.mp ha with h2 | h2
          · exact h2 ▸ List.mem_cons_self c l
          · exact List.mem_cons_of_mem c
              (ih h (by rw [he]; exact List.mem_cons_self h t) h2)
        · exact List.mem_cons_of_mem c
            (ih p (by rw [he]; exact List.mem_cons_of_mem h h1) ha)

theorem splitOnChar_of_not_mem {sep : Char} :
    ∀ {l : List Char}, sep ∉ l → splitOnChar sep l = [l] := by
  intro l
  induction l with
  | nil => intro _; rfl
  | cons c l ih =>
    intro h
    have hc : ¬c = sep := fun he => h (he ▸ List.mem_cons_self c l)
    have hl : sep ∉ l := fun hm => h (List.mem_cons_of_mem c hm)
    simp [splitOnChar, hc, ih hl]

theorem splitOnChar_append_sep {sep : Char} :
    ∀ {l : List Char}, sep ∉ l → ∀ m : List Char,
      splitOnChar sep (l ++ sep :: m) = l :: splitOnChar sep m := by
  intro l
  induction l with
  | nil => intro _ m; simp [splitOnChar]
  | cons c l ih =>
    intro h m
    have hc : ¬c = sep := fun he => h (he ▸ List.mem_cons_self c l)
    have hl : sep ∉ l := fun hm => h (List.mem_cons_of_mem c hm)
    simp [splitOnChar, hc, ih hl m]

/-- `bulletOk` factored into a per-character guard and state transition. -/
theorem bulletOk_cons (m : Option Bool) (c : Char) (l : List Char) :
    bulletOk m (c :: l) = (bulletGuard m c && bulletOk (bulletStep m c) l) := by
  by_cases hn : c = '\n'
  · subst hn
    cases m with
    | none => simp [bulletOk, bulletGuard, bulletStep]
    | some x => cases x <;> simp [bulletOk, bulletGuard, bulletStep]
  · by_cases hb : c = '•'
    · subst hb
      cases m with
      | none => simp [bulletOk, bulletGuard, bulletStep]
      | some x => cases x <;> simp [bulletOk, bulletGuard, bulletStep]
    · cases m with
      | none => simp [bulletOk, bulletGuard, bulletStep, hn, hb]
      | some x => cases x <;> simp [bulletOk, bulletGuard, bulletStep, hn, hb]

/-- The state machine `bulletOk` decides the per-line bullet discipline:
from a line start it demands that every line containing a `'•'` begin
with one; mid-line it additionally remembers whether the current line's
remaining characters may contain `'•'`. -/
theorem bulletOk_modes : ∀ l : List Char,
    (bulletOk none l = true ↔
      ∀ line ∈ splitOnChar '\n' l, '•' ∈ line → line.head? = some '•') ∧
    (bulletOk (some true) l = true ↔
      ∀ line ∈ (splitOnChar '\n' l).tail, '•' ∈ line → line.head? = some '•') ∧
    (bulletOk (some false) l = true ↔
      ('•' ∉ (splitOnChar '\n' l).headD [] ∧
        ∀ line ∈ (splitOnChar '\n' l).tail, '•' ∈ line → line.head? = some '•')) := by
  intro l
  induction l with
  | nil => refine ⟨?_, ?_, ?_⟩ <;> simp [bulletOk, splitOnChar]
  | cons c l ih =>
    obtain ⟨ih1, ih2, ih3⟩ := ih
    rcases hsp : splitOnChar '\n' l with _ | ⟨h, t⟩
    · exact absurd hsp (splitOnChar_ne_nil '\n' l)
    rw [hsp] at ih1 ih2 ih3
    simp only [List.tail_cons, List.headD_cons] at ih1 ih2 ih3
    by_cases hn : c = '\n'
    · subst hn
      have hsp2 : splitOnChar '\n' ('\n' :: l) = [] :: h :: t := by
        simp [splitOnChar, hsp]
      have hred : ∀ m, bulletOk m ('\n' :: l) = bulletOk none l := by
        intro m; simp [bulletOk]
      rw [hsp2]
      refine ⟨?_, ?_, ?_⟩
      · rw [hred, ih1]
        simp [List.forall_mem_cons]
      · rw [hred, ih1]
        simp [List.forall_mem_cons]
      · rw [hred, ih1]
        simp [List.forall_mem_cons]
    · by_cases hb : c = '•'
      · subst hb
        have hsp2 : splitOnChar '\n' ('•' :: l) = ('•' :: h) :: t := by
          simp [splitOnChar, hsp]
        rw [hsp2]
        refine ⟨?_, ?_, ?_⟩
        · rw [show bulletOk none ('•' :: l) = bulletOk (some true) l by
            simp [bulletOk], ih2]
          simp [List.forall_mem_cons]
        · rw [show bulletOk (some true) ('•' :: l) = bulletOk (some true) l by
            simp [bulletOk], ih2]
          simp [List.forall_mem_cons]
        · rw [show bulletOk (some false) ('•' :: l) = false by simp [bulletOk]]
          simp [List.forall_mem_cons]
      · have hsp2 : splitOnChar '\n' (c :: l) = (c :: h) :: t := by
          simp [splitOnChar, hn, hsp]
        rw [hsp2]
        refine ⟨?_, ?_, ?_⟩
        · rw [show bulletOk none (c :: l) = bulletOk (some false) l by
            simp [bulletOk, hn, hb], ih3]
          simp [List.forall_mem_cons, hb]
          tauto
        · rw [show bulletOk (some true) (c :: l) = bulletOk (some true) l by
            simp [bulletOk, hn, hb], ih2]
          simp [List.forall_mem_cons]
        · rw [show bulletOk (some false) (c :: l) = bulletOk (some false) l by
            simp [bulletOk, hn, hb], ih3]
          simp [List.forall_mem_cons, hb]
          tauto

theorem bulletOk_fixBulletBreaks :
    ∀ (n : Nat) (l : List Char), l.length ≤ n → ∀ m, bulletOk m l = true →
      bulletOk m (fixBulletBreaks l) = true := by
  intro n
  induction n with
  | zero =>
    intro l hl m h
    have hz : l = [] := List.length_eq_zero.mp (Nat.le_zero.mp hl)
    subst hz
    exact h
  | succ n ih =>
    intro l hl m h
    rcases l with _ | ⟨a, l1⟩
    · exact h
    rcases l1 with _ | ⟨b, l2⟩
    · simpa [fixBulletBreaks] using h
    rcases l2 with _ | ⟨c, rest⟩
    · simpa [fixBulletBreaks] using h
    simp only [List.length_cons] at hl
    by_cases hcond : a ≠ '\n' ∧ a ≠ '•' ∧ b = '\n' ∧ c = '•'
    · obtain ⟨ha1, ha2, hb, hc⟩ := hcond
      subst hb; subst hc
      have hfix : fixBulletBreaks (a :: '\n' :: '•' :: rest) =
          a :: '\n' :: '\n' :: '•' :: fixBulletBreaks rest := by
        rw [fixBulletBreaks]
        simp [ha1, ha2]
      rw [hfix]
      simp only [bulletOk_cons, Bool.and_eq_true] at h ⊢
      obtain ⟨hg, h2⟩ := h
      have hstep1 : bulletStep (bulletStep m a) '\n' = none := by
        simp [bulletStep]
      rw [hstep1] at h2
      refine ⟨hg, ?_⟩
      rw [hstep1]
      have hg2 : bulletGuard (bulletStep m a) '\n' = true := by
        simp [bulletGuard]
      rw [hg2] at h2 ⊢
      obtain ⟨_, h3⟩ := h2
      refine ⟨rfl, ?_⟩
      have hng : bulletGuard none '\n' = true := by simp [bulletGuard]
      have hns : bulletStep none '\n' = none := by simp [bulletStep]
      rw [hng, hns]
      obtain ⟨hgb, h4⟩ := h3
      exact ⟨rfl, hgb, ih rest (by omega) _ h4⟩
    · have hfix : fixBulletBreaks (a :: b :: c :: rest) =
          a :: fixBulletBreaks (b :: c :: rest) := by
        rw [fixBulletBreaks]
        rw [if_neg hcond]
      rw [hfix]
      rw [bulletOk_cons] at h ⊢
      simp only [Bool.and_eq_true] at h ⊢
      exact ⟨h.1, ih (b :: c :: rest) (by simp; omega) _ h.2⟩

theorem bulletOk_squeezeBlankLines :
    ∀ l : List Char,
      (∀ m, bulletOk m l = true → bulletOk m (squeezeBlankLines 0 l) = true) ∧
      (∀ run, bulletOk none l = true →
        bulletOk none (squeezeBlankLines run l) = true) := by
  intro l
  induction l with
  | nil =>
    exact ⟨fun m h => h, fun run h => by simpa [squeezeBlankLines] using h⟩
  | cons c l ih =>
    obtain ⟨ih1, ih2⟩ := ih
    by_cases hn : c = '\n'
    · subst hn
      have hrest : ∀ m, bulletOk m ('\n' :: l) = true → bulletOk none l = true := by
        intro m h
        rw [bulletOk_cons] at h
        simp only [Bool.and_eq_true] at h
        simpa [bulletStep] using h.2
      constructor
      · intro m h
        rw [show squeezeBlankLines 0 ('\n' :: l) =
            '\n' :: squeezeBlankLines 1 l by simp [squeezeBlankLines]]
        rw [bulletOk_cons]
        simp only [Bool.and_eq_true]
        exact ⟨by simp [bulletGuard], by
          simpa [bulletStep] using ih2 1 (hrest m h)⟩
      · intro run h
        by_cases hr : run ≥ 2
        · rw [show squeezeBlankLines run ('\n' :: l) =
              squeezeBlankLines (run + 1) l by simp [squeezeBlankLines, hr]]
          exact ih2 _ (hrest none h)
        · rw [show squeezeBlankLines run ('\n' :: l) =
              '\n' :: squeezeBlankLines (run + 1) l by
            simp [squeezeBlankLines, hr]]
          rw [bulletOk_cons]
          simp only [Bool.and_eq_true]
          exact ⟨by simp [bulletGuard], by
            simpa [bulletStep] using ih2 _ (hrest none h)⟩
    · have hsq : ∀ run, squeezeBlankLines run (c :: l) =
          c :: squeezeBlankLines 0 l := by
        intro run
        simp [squeezeBlankLines, hn]
      constructor
      · intro m h
        rw [hsq, bulletOk_cons]
        rw [bulletOk_cons] at h
        simp only [Bool.and_eq_true] at h ⊢
        exact ⟨h.1, ih1 _ h.2⟩
      · intro run h
        rw [hsq, bulletOk_cons]
        rw [bulletOk_cons] at h
        simp only [Bool.and_eq_true] at h ⊢
        exact ⟨h.1, ih1 _ h.2⟩

theorem bulletOk_trimRightJs : ∀ (l : List Char) (m : Option Bool),
    bulletOk m l = true → bulletOk m (trimRightJs l) = true := by
  intro l
  induction l with
  | nil => intro m h; exact h
  | cons c l ih =>
    intro m h
    rw [bulletOk_cons] at h
    simp only [Bool.and_eq_true] at h
    rw [trimRightJs]
    rcases he : trimRightJs l with _ | ⟨r, rs⟩
    · by_cases hw : isJsWs c
      · simp [hw, bulletOk]
      · simp only [hw, Bool.false_eq_true, if_false]
        rw [bulletOk_cons]
        simp only [Bool.and_eq_true]
        exact ⟨h.1, rfl⟩
    · rw [bulletOk_cons]
      simp only [Bool.and_eq_true]
      refine ⟨h.1, ?_⟩
      have := ih _ h.2
      rwa [he] at this

theorem bulletOk_some_false_none : ∀ l : List Char,
    bulletOk (some false) l = true → bulletOk none l = true := by
  intro l
  induction l with
  | nil => intro h; exact h
  | cons c l ih =>
    intro h
    rw [bulletOk_cons] at h ⊢
    simp only [Bool.and_eq_true] at h ⊢
    by_cases hn : c = '\n'
    · subst hn
      refine ⟨by simp [bulletGuard], ?_⟩
      simpa [bulletStep] using h.2
    · by_cases hb : c = '•'
      · exfalso
        subst hb
        simpa [bulletGuard] using h.1
      · refine ⟨by simp [bulletGuard, hb], ?_⟩
        have hs1 : bulletStep (some false) c = some false := by
          simp [bulletStep, hn, hb]
        have hs2 : bulletStep none c = some false := by
          simp [bulletStep, hn, hb]
        rw [hs1] at h
        rw [hs2]
        exact h.2

theorem bulletOk_trimLeftJs : ∀ l : List Char,
    bulletOk none l = true → bulletOk none (trimLeftJs l) = true := by
  intro l
  induction l with
  | nil => intro h; exact h
  | cons c l ih =>
    intro h
    by_cases hw : isJsWs c
    · rw [show trimLeftJs (c :: l) = trimLeftJs l by
        simp [trimLeftJs, List.dropWhile_cons, hw]]
      rw [bulletOk_cons] at h
      simp only [Bool.and_eq_true] at h
      by_cases hn : c = '\n'
      · subst hn
        exact ih (by simpa [bulletStep] using h.2)
      · have hb : ¬c = '•' := fun he => by
          subst he
          exact absurd hw (by decide)
        have hs : bulletStep none c = some false := by simp [bulletStep, hn, hb]
        rw [hs] at h
        exact ih (bulletOk_some_false_none l h.2)
    · rw [show trimLeftJs (c :: l) = c :: l by
        simp [trimLeftJs, List.dropWhile_cons, hw]]
      exact h

theorem mem_splitOnChar_joinNl : ∀ ls : List (List Char),
    (∀ p ∈ ls, '\n' ∉ p) →
    ∀ line ∈ splitOnChar '\n' (joinNl ls), line ∈ ls ∨ line = [] := by
  intro ls
  induction ls with
  | nil =>
    intro _ line hline
    right
    simpa [joinNl, splitOnChar] using hline
  | cons p ls ih =>
    intro hall line hline
    rcases ls with _ | ⟨q, ms⟩
    · rw [show joinNl [p] = p from rfl] at hline
      rw [splitOnChar_of_not_mem (hall p (by simp))] at hline
      have := List.mem_singleton.mp hline
      subst this
      exact .inl (by simp)
    · rw [show joinNl (p :: q :: ms) = p ++ '\n' :: joinNl (q :: ms) from
        rfl] at hline
      rw [splitOnChar_append_sep (hall p (by simp)) _] at hline
      rcases List.mem_cons.mp hline with h1 | h1
      · subst h1
        exact .inl (by simp)
      · rcases ih (fun r hr => hall r (List.mem_cons_of_mem p hr)) line h1
          with h2 | h2
        · exact .inl (List.mem_cons_of_mem p h2)
        · exact .inr h2

theorem bulletOk_joinNl {ls : List (List Char)}
    (h : ∀ p ∈ ls, '\n' ∉ p ∧ ('•' ∈ p → p.head? = some '•')) :
    bulletOk none (joinNl ls) = true := by
  apply (bulletOk_modes (joinNl ls)).1.mpr
  intro line hline hbul
  rcases mem_splitOnChar_joinNl ls (fun p hp => (h p hp).1) line hline
    with h1 | h1
  · exact (h line h1).2 hbul
  · subst h1
    cases hbul

theorem lineOut_spec {line : List Char} (hnl : '\n' ∉ line) :
    ∀ p ∈ lineOut line, '\n' ∉ p ∧ ('•' ∈ p → p.head? = some '•') := by
  intro p hp
  have htnl : '\n' ∉ trimJs line := fun hm => hnl (mem_trimJs hm)
  simp only [lineOut] at hp
  by_cases hcond : '•' ∈ trimJs line ∧ ¬(trimJs line).head? = some '•'
  · rw [if_pos hcond] at hp
    rcases hsp : splitOnChar '•' (trimJs line) with _ | ⟨p0, rest⟩
    · exact absurd hsp (splitOnChar_ne_nil _ _)
    rw [hsp] at hp
    rcases List.mem_append.mp hp with h1 | h1
    · by_cases hz : trimJs p0 = []
      · rw [if_pos hz] at h1
        cases h1
      · rw [if_neg hz] at h1
        have hps : p = trimJs p0 := List.mem_singleton.mp h1
        subst hps
        constructor
        · intro hm
          exact htnl (mem_of_mem_splitOnChar p0
            (by rw [hsp]; exact List.mem_cons_self p0 rest) (mem_trimJs hm))
        · intro hm
          exact absurd (mem_trimJs hm)
            (mem_splitOnChar_not_sep p0
              (by rw [hsp]; exact List.mem_cons_self p0 rest))
    · rcases List.mem_filterMap.mp h1 with ⟨q, hq, hqp⟩
      by_cases hz : trimJs q = []
      · rw [if_pos hz] at hqp
        cases hqp
      · rw [if_neg hz] at hqp
        have hps : p = '•' :: ' ' :: trimJs q := by
          have := Option.some.injEq _ _ ▸ hqp
          simpa using this.symm
        subst hps
        refine ⟨?_, fun _ => rfl⟩
        intro hm
        rcases List.mem_cons.mp hm with h2 | h2
        · cases h2
        rcases List.mem_cons.mp h2 with h3 | h3
        · cases h3
        exact htnl (mem_of_mem_splitOnChar q
          (by rw [hsp]; exact List.mem_cons_of_mem p0 hq) (mem_trimJs h3))
  · rw [if_neg hcond] at hp
    by_cases hz : trimJs line = []
    · rw [if_pos hz] at hp
      cases hp
    · rw [if_neg hz] at hp
      have hps : p = trimJs line := List.mem_singleton.mp hp
      subst hps
      refine ⟨htnl, fun hm => ?_⟩
      rw [not_and_or, not_not] at hcond
      rcases hcond with h1 | h1
      · exact absurd hm h1
      · exact h1

/-! ## Claim C2 -/

/-- Counterexample to claim C2: a line that already *starts* with `'•'`
is pushed verbatim by `formatBulletPoints` (the splitting branch is
guarded by `!trimmed.startsWith('•')`), so a second marker later in such
a line survives: the output for `"• a • b"` is the input itself, a single
line whose character at index 4 is a `'•'` that is not at the line's
first position. -/
theorem formatBulletPoints_interior_bullet :
    formatBulletPoints "• a • b" = "• a • b" ∧
    splitOnChar '\n' (formatBulletPoints "• a • b").data =
      ["• a • b".data] ∧
    "• a • b".data[4]? = some '•' ∧
    "• a • b".data[0]? = some '•' := by
  refine ⟨by decide, by decide, by decide, by decide⟩

/-- Claim C2 (corrected): in every `formatBulletPoints` output, every
line that contains a bullet marker *begins* with one (equivalently: a
`'•'` can fail to start its own line only when that line already starts
with another `'•'`).  The original claim — that every `'•'` sits at its
line's first position — fails on lines that entered the loop already
starting with a marker, as the counterexample shows. -/
theorem formatBulletPoints_bullet_lines (s : String) (line : List Char)
    (hline : line ∈ splitOnChar '\n' (formatBulletPoints s).data)
    (hbul : '•' ∈ line) : line.head? = some '•' := by
  have hprops : ∀ p ∈ (splitOnChar '\n' s.data).flatMap lineOut,
      '\n' ∉ p ∧ ('•' ∈ p → p.head? = some '•') := by
    intro p hp
    rcases List.mem_flatMap.mp hp with ⟨ln, hln, hpln⟩
    exact lineOut_spec (mem_splitOnChar_not_sep ln hln) p hpln
  have h0 : bulletOk none
      (joinNl ((splitOnChar '\n' s.data).flatMap lineOut)) = true :=
    bulletOk_joinNl hprops
  have h1 := bulletOk_fixBulletBreaks
    (joinNl ((splitOnChar '\n' s.data).flatMap lineOut)).length _ le_rfl none h0
  have h2 := (bulletOk_squeezeBlankLines _).1 none h1
  have h3 := bulletOk_trimRightJs _ none h2
  have h4 := bulletOk_trimLeftJs _ h3
  exact (bulletOk_modes _).1.mp h4 line hline hbul

/-- Witness for the amended C2 on the input `"x • y"`: the marker is
split onto its own line, and that line begins with the marker. -/
theorem formatBulletPoints_bullet_lines_witness :
    (['•', ' ', 'y'] : List Char).head? = some '•' :=
  formatBulletPoints_bullet_lines "x • y" ['•', ' ', 'y'] (by decide)
    (by decide)

/-! ## Helper lemmas: the modelled chunker -/

theorem matchSeq_length : ∀ (sep l r : List Char),
    matchSeq sep l = some r → r.length + sep.length = l.length := by
  intro sep
  induction sep with
  | nil =>
    intro l r h
    simp only [matchSeq, Option.some.injEq] at h
    subst h
    simp
  | cons p ps ih =>
    intro l r h
    cases l with
    | nil => simp [matchSeq] at h
    | cons c l =>
      simp only [matchSeq] at h
      by_cases hc : c = p
      · rw [if_pos hc] at h
        have := ih l r h
        simp only [List.length_cons]
        omega
      · rw [if_neg hc] at h
        cases h

theorem splitOnSeqGo_sum_le (sep : List Char) :
    ∀ (fuel : Nat) (l : List Char),
      ((splitOnSeqGo sep fuel l).map List.length).sum ≤ l.length := by
  intro fuel
  induction fuel with
  | zero =>
    intro l
    cases l with
    | nil => simp [splitOnSeqGo]
    | cons c l => simp [splitOnSeqGo]
  | succ fuel ih =>
    intro l
    cases l with
    | nil => simp [splitOnSeqGo]
    | cons c l =>
      rw [splitOnSeqGo]
      rcases hm : matchSeq sep (c :: l) with _ | rest
      · simp only [hm]
        rcases he : splitOnSeqGo sep fuel l with _ | ⟨h, t⟩
        · simp
        · have hle := ih l
          rw [he] at hle
          simp only [List.map_cons, List.sum_cons, List.length_cons] at hle ⊢
          omega
      · simp only [hm]
        have hlen := matchSeq_length sep (c :: l) rest hm
        have hle := ih rest
        simp only [List.length_cons] at hlen
        simp only [List.map_cons, List.sum_cons, List.length_nil,
          List.length_cons]
        omega

theorem hardSplitGo_length_le {target stride : Nat} (hs : 1 ≤ stride)
    (ht : 1 ≤ target) :
    ∀ (fuel : Nat) (l : List Char),
      (hardSplitGo target stride fuel l).length ≤ max 1 l.length := by
  intro fuel
  induction fuel with
  | zero =>
    intro l
    by_cases hz : l = []
    · simp [hardSplitGo, hz]
    · simp [hardSplitGo, hz]
  | succ fuel ih =>
    intro l
    rw [hardSplitGo]
    by_cases hlen : l.length ≤ target
    · rw [if_pos hlen]
      by_cases hz : l = [] <;> simp [hz]
    · rw [if_neg hlen]
      have := ih (l.drop stride)
      simp only [List.length_drop] at this
      simp only [List.length_cons]
      omega

theorem hardSplitGo_ne_nil {target stride : Nat} (ht : 1 ≤ target) :
    ∀ (fuel : Nat) (l : List Char), ∀ c ∈ hardSplitGo target stride fuel l,
      c ≠ [] := by
  intro fuel
  induction fuel with
  | zero =>
    intro l c hc
    by_cases hz : l = []
    · simp [hardSplitGo, hz] at hc
    · rw [hardSplitGo, if_neg hz] at hc
      rw [List.mem_singleton.mp hc]
      exact hz
  | succ fuel ih =>
    intro l c hc
    rw [hardSplitGo] at hc
    by_cases hlen : l.length ≤ target
    · rw [if_pos hlen] at hc
      by_cases hz : l = []
      · simp [hz] at hc
      · rw [if_neg hz] at hc
        rw [List.mem_singleton.mp hc]
        exact hz
    · rw [if_neg hlen] at hc
      rcases List.mem_cons.mp hc with h1 | h1
      · subst h1
        have hne : l ≠ [] := by
          intro hz
          rw [hz] at hlen
          exact hlen (by simp)
        simp only [ne_eq, List.take_eq_nil_iff]
        push_neg
        exact ⟨by omega, hne⟩
      · exact ih (l.drop stride) c h1

theorem splitRecGo_ne_nil {target stride : Nat} (ht : 1 ≤ target) :
    ∀ (fuel : Nat) (l : List Char), ∀ c ∈ splitRecGo target stride fuel l,
      c ≠ [] := by
  intro fuel
  induction fuel with
  | zero =>
    intro l c hc
    by_cases hz : l = []
    · simp [splitRecGo, hz] at hc
    · simp only [splitRecGo, hz, if_neg hz] at hc
      rw [List.mem_singleton.mp hc]
      exact hz
  | succ fuel ih =>
    intro l c hc
    rw [splitRecGo] at hc
    by_cases hlen : l.length ≤ target
    · rw [if_pos hlen] at hc
      by_cases hz : l = []
      · simp [hz] at hc
      · rw [if_neg hz] at hc
        rw [List.mem_singleton.mp hc]
        exact hz
    · rw [if_neg hlen] at hc
      rcases hsep : firstChunkSep l with _ | sep
      · rw [hsep] at hc
        exact hardSplitGo_ne_nil ht l.length l c hc
      · rw [hsep] at hc
        rcases List.mem_flatMap.mp hc with ⟨p, hp, hcp⟩
        exact ih p c hcp

theorem splitRecGo_length_le {target stride : Nat} (hs : 1 ≤ stride)
    (ht : 1 ≤ target) :
    ∀ (fuel : Nat) (l : List Char),
      (splitRecGo target stride fuel l).length ≤ max 1 l.length := by
  intro fuel
  induction fuel with
  | zero =>
    intro l
    by_cases hz : l = [] <;> simp [splitRecGo, hz]
  | succ fuel ih =>
    intro l
    rw [splitRecGo]
    by_cases hlen : l.length ≤ target
    · rw [if_pos hlen]
      by_cases hz : l = [] <;> simp [hz]
    · rw [if_neg hlen]
      rcases hsep : firstChunkSep l with _ | sep
      · exact hardSplitGo_length_le hs ht l.length l
      · show ((((splitOnSeq sep l).filter (fun p => p ≠ [])).flatMap
          (splitRecGo target stride fuel)).length ≤ max 1 l.length)
        rw [List.length_flatMap]
        have hsum1 : (((splitOnSeq sep l).filter (fun p => p ≠ [])).map
            (List.length ∘ splitRecGo target stride fuel)).sum ≤
            (((splitOnSeq sep l).filter (fun p => p ≠ [])).map
              List.length).sum := by
          apply List.sum_le_sum
          intro p hp
          have hpne : p ≠ [] := by
            have := (List.mem_filter.mp hp).2
            simpa using this
          have hplen : 1 ≤ p.length := List.length_pos.mpr hpne
          have hrec := ih p
          simp only [Function.comp_apply]
          omega
        have hsum2 : (((splitOnSeq sep l).filter (fun p => p ≠ [])).map
            List.length).sum ≤ ((splitOnSeq sep l).map List.length).sum :=
          List.Sublist.sum_le_sum
            ((List.filter_sublist (splitOnSeq sep l)).map List.length)
            (fun a _ => Nat.zero_le a)
        have hsum3 : ((splitOnSeq sep l).map List.length).sum ≤ l.length :=
          splitOnSeqGo_sum_le sep l.length l
        omega

/-! ## Claim C7 -/

/-- Counterexample to claim C7's chunk-count bound (on the spec-modelled
chunker): a 31-character text of one-letter words, chunked with target 20
and overlap 5, splits on the space separator into 16 one-character
chunks, while `ceil(31 / (20 - 5)) = 3`. -/
theorem chunker_bound_counterexample :
    (splitTextIntoSemanticChunks 20 5
      "a b a b a b a b a b a b a b a b".data).length = 16 ∧
    ceilDiv "a b a b a b a b a b a b a b a b".data.length (20 - 5) = 3 ∧
    3 < 16 := by
  refine ⟨by decide, by decide, by decide⟩

/-- Claim C7 (corrected): the spec-modelled chunker never produces an
empty chunk, and its chunk count is finite — bounded by the text length —
but the claimed bound `ceil(len / (targetSize - overlap))` does not hold
(separator-based pieces can be far smaller than `targetSize - overlap`,
as the counterexample shows). -/
theorem chunker_nonempty_and_finite (target overlap : Nat)
    (h : overlap < target) (l : List Char) :
    (∀ c ∈ splitTextIntoSemanticChunks target overlap l, c ≠ []) ∧
    (splitTextIntoSemanticChunks target overlap l).length ≤ max 1 l.length := by
  have hs : 1 ≤ target - overlap := by omega
  have ht : 1 ≤ target := by omega
  exact ⟨splitRecGo_ne_nil ht l.length l,
    splitRecGo_length_le hs ht l.length l⟩

/-- Witness for the amended C7 at a concrete configuration and input. -/
theorem chunker_nonempty_and_finite_witness :
    (splitTextIntoSemanticChunks 20 5 "ab".data).length ≤
      max 1 "ab".data.length :=
  (chunker_nonempty_and_finite 20 5 (by omega) "ab".data).2
